import Mathlib

/-
Verification of the client-side data-shaping pipeline of the GraphQL
profile dashboard.  Each definition is a shallow embedding of a function
from the repository source (file and line references in the doc comments).
JS strings are modelled as Lean String, JS numbers on transaction amounts
as Int (the data model declares amounts integral), grades and ratios as ℚ.
A missing field reached through optional chaining and defaulted with
a JS or-else (x?.f or '') is modelled as the default value itself.
-/

set_option autoImplicit false

namespace GraphQLDash

/-- Prefix test on character lists, first argument is the pattern. -/
def listHasPre : List Char → List Char → Bool
  | [], _ => true
  | _ :: _, [] => false
  | p :: ps, c :: cs => p == c && listHasPre ps cs

/-- Contiguous-substring test on character lists (pattern second). -/
def listHasSub (s pat : List Char) : Bool :=
  match s with
  | [] => listHasPre pat []
  | _ :: rest => listHasPre pat s || listHasSub rest pat

/-- JS String.prototype.includes: contiguous substring test. -/
def strIncludes (s pat : String) : Bool :=
  listHasSub s.toList pat.toList

/-- A transaction record as consumed by the pipeline.
objectType models transaction.object?.type defaulted to "", objectName
models transaction.object?.name defaulted to "", path models
transaction.path defaulted to "", kind models transaction.type
(the skill marker string), createdAt an integral timestamp. -/
structure Transaction where
  objectType : String
  objectName : String
  path : String
  amount : Int
  createdAt : Nat
  kind : String
deriving DecidableEq, Repr

/-- The keep-predicate of filterXPData (helpers source, lines 166-196):
drop exercises, drop raids, drop piscine-go and piscine-rust. -/
def keepXP (t : Transaction) : Bool :=
  if t.objectType == "exercise" then false
  else if t.objectType == "raid" then false
  else
    let isPiscineGo := t.objectType == "piscine" &&
      (strIncludes t.objectName.toLower "go" ||
       strIncludes t.path "piscine-go" ||
       t.objectName.toLower == "piscine go")
    let isPiscineRust := t.objectType == "piscine" &&
      (strIncludes t.objectName.toLower "rust" ||
       strIncludes t.path "piscine-rust" ||
       t.objectName.toLower == "piscine rust")
    !(isPiscineGo || isPiscineRust)

/-- filterXPData (helpers source, lines 166-196). -/
def filterXPData (xpData : List Transaction) : List Transaction :=
  xpData.filter keepXP

/-- The drop condition exactly as the specification sentence words it
(claim C2): category "exercise" or "raid"; or category "piscine" and
(name case-insensitively contains "go", or path contains "piscine-go",
or name case-insensitively equals "piscine go"); likewise for rust. -/
def droppedClaim (t : Transaction) : Bool :=
  t.objectType == "exercise" || t.objectType == "raid" ||
  (t.objectType == "piscine" &&
    (strIncludes t.objectName.toLower "go" ||
     strIncludes t.path "piscine-go" ||
     t.objectName.toLower == "piscine go")) ||
  (t.objectType == "piscine" &&
    (strIncludes t.objectName.toLower "rust" ||
     strIncludes t.path "piscine-rust" ||
     t.objectName.toLower == "piscine rust"))

theorem keepXP_eq_not_droppedClaim (t : Transaction) :
    keepXP t = !droppedClaim t := by
  unfold keepXP droppedClaim
  cases h1 : t.objectType == "exercise" <;>
    cases h2 : t.objectType == "raid" <;>
      cases h3 : t.objectType == "piscine" <;> simp

/-- C2: a record is dropped by filterXPData exactly when its category is
"exercise" or "raid", or it is a piscine whose name contains "go"
case-insensitively, whose path contains "piscine-go", or whose name
case-insensitively equals "piscine go" (and the same with rust);
every other record is kept. -/
theorem filterXPData_mem_iff (xpData : List Transaction) (t : Transaction) :
    t ∈ filterXPData xpData ↔ t ∈ xpData ∧ droppedClaim t = false := by
  rw [filterXPData, List.mem_filter, keepXP_eq_not_droppedClaim,
    Bool.not_eq_true']

/-- A sample project-category transaction, used in witnesses. -/
def sampleTx : Transaction :=
  ⟨"project", "graphql", "p", 5, 0, "xp"⟩

theorem filterXPData_mem_iff_witness :
    sampleTx ∈ filterXPData [sampleTx] ↔
      sampleTx ∈ [sampleTx] ∧ droppedClaim sampleTx = false :=
  filterXPData_mem_iff [sampleTx] sampleTx

theorem keepXP_ne_exercise_raid (t : Transaction) (h : keepXP t = true) :
    t.objectType ≠ "exercise" ∧ t.objectType ≠ "raid" := by
  constructor <;> intro he <;> simp [keepXP, he] at h

/-- C3: filterXPData never returns a record whose category is "exercise"
or "raid", and it is idempotent. -/
theorem filterXPData_no_exercise_raid_and_idempotent
    (xpData : List Transaction) :
    (∀ t ∈ filterXPData xpData,
        t.objectType ≠ "exercise" ∧ t.objectType ≠ "raid") ∧
      filterXPData (filterXPData xpData) = filterXPData xpData := by
  constructor
  · intro t ht
    exact keepXP_ne_exercise_raid t (List.of_mem_filter ht)
  · simp [filterXPData, List.filter_filter]

theorem filterXPData_no_exercise_raid_and_idempotent_witness :
    (∀ t ∈ filterXPData [sampleTx],
        t.objectType ≠ "exercise" ∧ t.objectType ≠ "raid") ∧
      filterXPData (filterXPData [sampleTx]) = filterXPData [sampleTx] :=
  filterXPData_no_exercise_raid_and_idempotent [sampleTx]

/-- One point of the cumulative series: the spread of the transaction
plus the running total (helpers source, lines 209-216). -/
structure CumPoint where
  tx : Transaction
  cumulativeXP : Int
deriving DecidableEq, Repr

/-- The walk of calculateCumulativeXP: running sum threaded left to
right, one emitted point per record. -/
def cumulativeFrom (acc : Int) : List Transaction → List CumPoint
  | [] => []
  | t :: ts => ⟨t, acc + t.amount⟩ :: cumulativeFrom (acc + t.amount) ts

/-- calculateCumulativeXP (helpers source, lines 203-217): stable sort
ascending by createdAt, then prefix-sum the amounts.  The JS stable
Array.prototype.sort with comparator on timestamps is modelled by the
stable insertion sort on the same key. -/
def calculateCumulativeXP (xpData : List Transaction) : List CumPoint :=
  cumulativeFrom 0
    (xpData.insertionSort (fun a b => a.createdAt ≤ b.createdAt))

theorem length_cumulativeFrom (acc : Int) (l : List Transaction) :
    (cumulativeFrom acc l).length = l.length := by
  induction l generalizing acc with
  | nil => rfl
  | cons t ts ih => simp [cumulativeFrom, ih]

theorem chain_cumulativeFrom (acc : Int) (l : List Transaction)
    (h : ∀ t ∈ l, 0 ≤ t.amount) :
    List.Chain' (· ≤ ·) ((cumulativeFrom acc l).map CumPoint.cumulativeXP) := by
  induction l generalizing acc with
  | nil => simp [cumulativeFrom]
  | cons t ts ih =>
    have hts : ∀ u ∈ ts, 0 ≤ u.amount := fun u hu => h u (List.mem_cons_of_mem t hu)
    cases ts with
    | nil => simp [cumulativeFrom]
    | cons u us =>
      rw [cumulativeFrom, cumulativeFrom, List.map_cons, List.map_cons,
        List.chain'_cons]
      refine ⟨?_, ?_⟩
      · have hu : 0 ≤ u.amount := hts u (List.mem_cons_self u us)
        show acc + t.amount ≤ acc + t.amount + u.amount
        omega
      · have := ih (acc + t.amount) hts
        rwa [cumulativeFrom, List.map_cons] at this

/-- C1 counterexample: on an input holding a negative amount the running
totals of calculateCumulativeXP strictly decrease, so the non-decreasing
part of the claim fails for this list of transaction records. -/
theorem calculateCumulativeXP_not_monotone_on_negative_amount :
    ¬ List.Chain' (· ≤ ·)
      ((calculateCumulativeXP
        [⟨"project", "a", "p", 5, 0, "xp"⟩,
         ⟨"project", "b", "p", -7, 1, "xp"⟩]).map CumPoint.cumulativeXP) := by
  intro h
  have hev : (calculateCumulativeXP
      [⟨"project", "a", "p", 5, 0, "xp"⟩,
       ⟨"project", "b", "p", -7, 1, "xp"⟩]).map CumPoint.cumulativeXP =
      [5, -2] := by decide
  rw [hev] at h
  exact absurd (List.chain'_cons.mp h).1 (by decide)

/-- C1 amended: the series always has exactly one point per input record,
and provided every record amount is non-negative the running totals taken
in output order are non-decreasing. -/
theorem calculateCumulativeXP_length_and_monotone
    (xpData : List Transaction) :
    (calculateCumulativeXP xpData).length = xpData.length ∧
      ((∀ t ∈ xpData, 0 ≤ t.amount) →
        List.Chain' (· ≤ ·)
          ((calculateCumulativeXP xpData).map CumPoint.cumulativeXP)) := by
  constructor
  · rw [calculateCumulativeXP, length_cumulativeFrom]
    exact (xpData.perm_insertionSort _).length_eq
  · intro h
    refine chain_cumulativeFrom 0 _ (fun t ht => h t ?_)
    exact (xpData.perm_insertionSort (fun a b => a.createdAt ≤ b.createdAt)).mem_iff.mp ht

theorem calculateCumulativeXP_length_and_monotone_witness :
    (calculateCumulativeXP [sampleTx]).length = [sampleTx].length ∧
      List.Chain' (· ≤ ·)
        ((calculateCumulativeXP [sampleTx]).map CumPoint.cumulativeXP) :=
  ⟨(calculateCumulativeXP_length_and_monotone [sampleTx]).1,
    (calculateCumulativeXP_length_and_monotone [sampleTx]).2 (by decide)⟩

/-- The audit summary computed by getUserRank's sibling getUserAudits
(graphql service source, lines 288-309); auditRatioQ models the
auditRatio field.  The inputs are the amounts of the up and down
transaction lists returned by the query. -/
structure AuditSummary where
  auditsGiven : Int
  auditsReceived : Int
  auditRatioQ : ℚ
deriving DecidableEq, Repr

/-- getUserAudits summary computation (graphql service source, lines
292-309): given total is the plain sum, received total sums absolute
values, and the ratio falls back to the given total (or zero) when the
received total is zero.  JS float division is modelled exactly in ℚ. -/
def getUserAudits (upAmounts downAmounts : List Int) : AuditSummary :=
  let auditsGivenXP := upAmounts.foldl (· + ·) 0
  let auditsReceivedXP := (downAmounts.map (fun a => |a|)).foldl (· + ·) 0
  { auditsGiven := auditsGivenXP
    auditsReceived := auditsReceivedXP
    auditRatioQ :=
      if auditsReceivedXP ≠ 0 then
        (auditsGivenXP : ℚ) / (auditsReceivedXP : ℚ)
      else if 0 < auditsGivenXP then (auditsGivenXP : ℚ) else 0 }

/-- C4: the audit summary's given total is the sum of the given amounts,
its received total is the sum of absolute values of the received
amounts, the ratio is given over received when received is nonzero and
otherwise the positive given total or zero; in particular given [100]
and received [] yield ratio 100, and two empty lists yield all zeros. -/
theorem getUserAudits_spec :
    (∀ upAmounts downAmounts : List Int,
      (getUserAudits upAmounts downAmounts).auditsGiven = upAmounts.sum ∧
      (getUserAudits upAmounts downAmounts).auditsReceived =
        ((downAmounts.map (fun a => |a|)).sum) ∧
      ((getUserAudits upAmounts downAmounts).auditsReceived ≠ 0 →
        (getUserAudits upAmounts downAmounts).auditRatioQ =
          ((getUserAudits upAmounts downAmounts).auditsGiven : ℚ) /
            ((getUserAudits upAmounts downAmounts).auditsReceived : ℚ)) ∧
      ((getUserAudits upAmounts downAmounts).auditsReceived = 0 →
        (getUserAudits upAmounts downAmounts).auditRatioQ =
          (if 0 < (getUserAudits upAmounts downAmounts).auditsGiven then
            ((getUserAudits upAmounts downAmounts).auditsGiven : ℚ)
          else 0))) ∧
    getUserAudits [100] [] = ⟨100, 0, 100⟩ ∧
    getUserAudits [] [] = ⟨0, 0, 0⟩ := by
  refine ⟨fun upAmounts downAmounts => ?_, by decide, by decide⟩
  have hg : (getUserAudits upAmounts downAmounts).auditsGiven =
      upAmounts.sum := by
    simp [getUserAudits, List.sum_eq_foldl]
  have hr : (getUserAudits upAmounts downAmounts).auditsReceived =
      (downAmounts.map (fun a => |a|)).sum := by
    simp [getUserAudits, List.sum_eq_foldl]
  refine ⟨hg, hr, ?_, ?_⟩ <;> intro h <;>
    simp only [getUserAudits] at h ⊢ <;> simp [h]

theorem getUserAudits_spec_witness :
    (getUserAudits [100] []).auditsGiven = ([100] : List Int).sum ∧
      (getUserAudits [100] []).auditRatioQ =
        (if 0 < (getUserAudits [100] []).auditsGiven then
          ((getUserAudits [100] []).auditsGiven : ℚ)
        else 0) :=
  ⟨(getUserAudits_spec.1 [100] []).1,
    (getUserAudits_spec.1 [100] []).2.2.2 (by decide)⟩

/-- A progress record as consumed by calculateSuccessRate: objectType
models p.object?.type, path models p.path defaulted to "", grade the
floating-point grade, modelled in ℚ. -/
structure ProgressRec where
  objectType : String
  path : String
  grade : ℚ
deriving DecidableEq, Repr

/-- The success-rate statistics record (helpers source, lines 277-282). -/
structure SuccessRate where
  total : Nat
  passed : Nat
  failed : Nat
  successRate : ℚ
deriving DecidableEq, Repr

/-- calculateSuccessRate (helpers source, lines 267-283): restrict to
project-category records whose path does not contain "piscine", count
grade ≥ 1 as passed and grade = 0 as failed, rate is passed over total
times 100 or zero on an empty restriction. -/
def calculateSuccessRate (progressData : List ProgressRec) : SuccessRate :=
  let projects := progressData.filter (fun p =>
    p.objectType == "project" && !(strIncludes p.path "piscine"))
  let passed := (projects.filter (fun p => decide ((1 : ℚ) ≤ p.grade))).length
  let failed := (projects.filter (fun p => decide (p.grade = 0))).length
  let total := projects.length
  { total := total
    passed := passed
    failed := failed
    successRate := if 0 < total then ((passed : ℚ) / (total : ℚ)) * 100 else 0 }

/-- C5: calculateSuccessRate restricts to project-category records whose
path does not contain "piscine", passed counts grade ≥ 1, failed counts
grade = 0, the rate is passed over total times 100 or zero when the
restriction is empty; on the spec's three-record example the result is
total 2, passed 1, failed 1, rate 50, the piscine-pathed record excluded. -/
theorem calculateSuccessRate_spec :
    (∀ progressData : List ProgressRec,
      (calculateSuccessRate progressData).total =
        (progressData.filter (fun p =>
          p.objectType == "project" && !(strIncludes p.path "piscine"))).length ∧
      (calculateSuccessRate progressData).passed =
        ((progressData.filter (fun p =>
          p.objectType == "project" && !(strIncludes p.path "piscine"))).filter
            (fun p => decide ((1 : ℚ) ≤ p.grade))).length ∧
      (calculateSuccessRate progressData).failed =
        ((progressData.filter (fun p =>
          p.objectType == "project" && !(strIncludes p.path "piscine"))).filter
            (fun p => decide (p.grade = 0))).length ∧
      (0 < (calculateSuccessRate progressData).total →
        (calculateSuccessRate progressData).successRate =
          ((calculateSuccessRate progressData).passed : ℚ) /
            ((calculateSuccessRate progressData).total : ℚ) * 100) ∧
      ((calculateSuccessRate progressData).total = 0 →
        (calculateSuccessRate progressData).successRate = 0)) ∧
    calculateSuccessRate
        [⟨"project", "", 1⟩, ⟨"project", "", 0⟩,
         ⟨"project", "x/piscine/y", 1⟩] = ⟨2, 1, 1, 50⟩ := by
  have g1 : decide ((1 : ℚ) ≤ 1) = true := by
    simp only [decide_eq_true_eq]
    norm_num
  have g0 : decide ((1 : ℚ) ≤ 0) = false := by
    simp only [decide_eq_false_iff_not]
    norm_num
  have e0 : decide ((0 : ℚ) = 0) = true := by
    simp only [decide_eq_true_eq]
  have e1 : decide ((1 : ℚ) = 0) = false := by
    simp only [decide_eq_false_iff_not]
    norm_num
  have s1 : strIncludes "" "piscine" = false := rfl
  have s2 : strIncludes "x/piscine/y" "piscine" = true := rfl
  refine ⟨fun progressData => ⟨rfl, rfl, rfl, ?_, ?_⟩, ?_⟩
  · intro h
    simp only [calculateSuccessRate] at h ⊢
    simp [h]
  · intro h
    simp only [calculateSuccessRate] at h ⊢
    simp [h]
  · simp only [calculateSuccessRate, List.filter, g1, g0, e0, e1, s1, s2]
    norm_num

theorem calculateSuccessRate_spec_witness :
    (calculateSuccessRate [⟨"project", "", (1 : ℚ)⟩]).total =
      ([⟨"project", "", (1 : ℚ)⟩] : List ProgressRec).length ∧
      (calculateSuccessRate [⟨"project", "", (1 : ℚ)⟩]).successRate =
        ((calculateSuccessRate [⟨"project", "", (1 : ℚ)⟩]).passed : ℚ) /
          ((calculateSuccessRate [⟨"project", "", (1 : ℚ)⟩]).total : ℚ) * 100 :=
  ⟨(calculateSuccessRate_spec.1 [⟨"project", "", (1 : ℚ)⟩]).1,
    (calculateSuccessRate_spec.1 [⟨"project", "", (1 : ℚ)⟩]).2.2.2.1
      (by decide)⟩

theorem length_filter_add_length_filter_le {α : Type} (p q : α → Bool)
    (h : ∀ a, p a = true → q a = false) (l : List α) :
    (l.filter p).length + (l.filter q).length ≤ l.length := by
  induction l with
  | nil => simp
  | cons a l ih =>
    by_cases hp : p a = true
    · have hq := h a hp
      simp only [List.filter_cons, hp, hq, if_true, if_false,
        Bool.false_eq_true, List.length_cons]
      omega
    · rw [Bool.not_eq_true] at hp
      by_cases hq : q a = true <;>
        simp only [List.filter_cons, hp, hq, Bool.false_eq_true, if_false,
          if_true, List.length_cons] <;> omega

/-- C10: passed plus failed never exceeds total, and equality can fail: a
lone project record of grade one half is counted in the total but in
neither passed nor failed, so the rate is 0 even though nothing failed. -/
theorem calculateSuccessRate_passed_failed_le_total :
    (∀ progressData : List ProgressRec,
      (calculateSuccessRate progressData).passed +
          (calculateSuccessRate progressData).failed ≤
        (calculateSuccessRate progressData).total) ∧
    calculateSuccessRate [⟨"project", "", (1 : ℚ) / 2⟩] = ⟨1, 0, 0, 0⟩ := by
  have g0 : decide ((1 : ℚ) ≤ 1 / 2) = false := by
    simp only [decide_eq_false_iff_not]
    norm_num
  have e0 : decide ((1 : ℚ) / 2 = 0) = false := by
    simp only [decide_eq_false_iff_not]
    norm_num
  have s1 : strIncludes "" "piscine" = false := rfl
  refine ⟨fun progressData => ?_, ?_⟩
  case refine_2 =>
    simp only [calculateSuccessRate, List.filter, g0, e0, s1]
    norm_num
  refine length_filter_add_length_filter_le _ _ (fun a ha => ?_) _
  rw [decide_eq_true_iff] at ha
  rw [decide_eq_false_iff_not]
  intro h0
  rw [h0] at ha
  exact absurd ha (by norm_num)

/-- The skillMappings table of formatSkillName, verbatim (graphql
service source, lines 533-553). -/
def skillMappingsTable : List (String × String) :=
  [("go", "Go Programming"), ("js", "JavaScript"), ("html", "HTML"),
   ("css", "CSS"), ("sql", "SQL"), ("db", "Database Management"),
   ("web-dev", "Web Development"), ("backend", "Backend Development"),
   ("frontend", "Frontend Development"), ("api", "API Development"),
   ("docker", "Docker"), ("git", "Git"), ("linux", "Linux"),
   ("algo", "Algorithm Design"), ("data-struct", "Data Structures"),
   ("network", "Network Programming"), ("security", "Security"),
   ("testing", "Testing"), ("debug", "Debugging")]

/-- JS String.prototype.startsWith, over the code-unit sequence. -/
def strStartsWith (s pre : String) : Bool :=
  listHasPre pre.toList s.toList

/-- JS String.prototype.slice from a character index to the end. -/
def strDrop (s : String) (n : Nat) : String :=
  String.mk (s.toList.drop n)

/-- JS String.prototype.split(' '): cut at every single space,
keeping empty fragments. -/
def splitOnSpace : List Char → List (List Char)
  | [] => [[]]
  | c :: rest =>
    let r := splitOnSpace rest
    if c = ' ' then [] :: r
    else
      match r with
      | [] => [[c]]
      | w :: ws => (c :: w) :: ws

/-- JS word.charAt(0).toUpperCase() + word.slice(1); charAt(0) of the
empty string is the empty string. -/
def titleCaseChars : List Char → List Char
  | [] => []
  | c :: cs => c.toUpper :: cs

/-- JS Array.prototype.join(' '). -/
def joinSpace : List (List Char) → List Char
  | [] => []
  | [w] => w
  | w :: ws => w ++ ' ' :: joinSpace ws

/-- The unmapped-label branch of formatSkillName (graphql service
source, lines 560-564): hyphens and underscores become spaces, each
space-separated word is title-cased, and the words are re-joined. -/
def titleCaseLabel (skillPart : String) : String :=
  String.mk (joinSpace
    ((splitOnSpace (skillPart.toList.map (fun c =>
        if c = '-' ∨ c = '_' then ' ' else c))).map titleCaseChars))

/-- formatSkillName (graphql service source, lines 524-565).  A falsy
(empty) input yields "Unknown Skill", a string without the skill marker
is returned unchanged; otherwise the marker is stripped (the source's
replace of the first occurrence of "skill_", which under the guard is
the six leading characters), the mapping table is consulted, and
unmapped labels are title-cased. -/
def formatSkillName (skillType : String) : String :=
  if skillType = "" then "Unknown Skill"
  else if ¬ (strStartsWith skillType "skill_" = true) then skillType
  else
    match skillMappingsTable.lookup (strDrop skillType 6) with
    | some mapped => mapped
    | none => titleCaseLabel (strDrop skillType 6)

/-- C7: formatSkillName on a string carrying the skill marker strips the
marker, consults the fixed abbreviation table, and title-cases unmapped
labels; in particular skill_web-dev maps to Web Development and
skill_xyz-thing to Xyz Thing. -/
theorem formatSkillName_spec :
    (∀ skillType : String, strStartsWith skillType "skill_" = true →
      formatSkillName skillType =
        (match skillMappingsTable.lookup (strDrop skillType 6) with
          | some mapped => mapped
          | none => titleCaseLabel (strDrop skillType 6))) ∧
    formatSkillName "skill_web-dev" = "Web Development" ∧
    formatSkillName "skill_xyz-thing" = "Xyz Thing" := by
  refine ⟨fun skillType h => ?_, by decide, by decide⟩
  have hne : ¬ (skillType = "") := by
    rintro rfl
    exact absurd h (by decide)
  rw [formatSkillName, if_neg hne, if_neg (by simp [h])]

theorem formatSkillName_spec_witness :
    formatSkillName "skill_go" = "Go Programming" :=
  (formatSkillName_spec.1 "skill_go" (by decide)).trans (by decide)

/-- getRankName (revision source, lines 1345-1357): fixed level-to-title
thresholds, highest first. -/
def getRankName (level : Int) : String :=
  if 60 ≤ level then "Senior Architect"
  else if 50 ≤ level then "Lead Developer"
  else if 40 ≤ level then "Senior Developer"
  else if 30 ≤ level then "Assistant Developer"
  else if 25 ≤ level then "Junior Developer"
  else if 20 ≤ level then "Developer"
  else if 15 ≤ level then "Advanced Programmer"
  else if 10 ≤ level then "Programmer"
  else if 5 ≤ level then "Junior Programmer"
  else if 2 ≤ level then "Apprentice"
  else "Beginner"

/-- The rank estimate record returned by getUserRank; rank is the label. -/
structure RankResult where
  level : Int
  rank : String
deriving DecidableEq, Repr

/-- JS x || 1 on an integer level: zero falls back to one. -/
def orOne (n : Int) : Int :=
  if n = 0 then 1 else n

/-- JS Math.floor(a / b) on integers: floor division. -/
def jsFloorDiv (a b : Int) : Int :=
  Int.fdiv a b

/-- Strategy 1 of getUserRank (graphql service source, lines 736-766):
among already-fetched progress records keep grades above one (the
source's p.grade && p.grade > 1, the truthiness test being implied by
the comparison), sort descending by grade keeping input order on ties,
take five, and accept the floored top grade only when at least ten. -/
def quickLevel (existingProgress : List ProgressRec) : Option RankResult :=
  if existingProgress.length = 0 then none
  else
    match ((existingProgress.filter (fun p =>
        decide (1 < p.grade))).insertionSort
          (fun a b => b.grade ≤ a.grade)).take 5 with
    | [] => none
    | highest :: _ =>
      let potentialLevel := ⌊highest.grade⌋
      if 10 ≤ potentialLevel then
        some ⟨potentialLevel, getRankName potentialLevel⟩
      else none

/-- Strategy 4 of getUserRank (graphql service source, lines 914-937):
highest grade above one across all progress, floored, accepted only when
above one. -/
def highestGradeLevel (allProgress : List ProgressRec) : Option RankResult :=
  match ((allProgress.filter (fun p =>
      decide (1 < p.grade))).insertionSort
        (fun a b => b.grade ≤ a.grade)).take 10 with
  | [] => none
  | highestGrade :: _ =>
    let level := ⌊highestGrade.grade⌋
    if 1 < level then some ⟨level, getRankName level⟩ else none

/-- One multiplicative step of the XP requirement: Math.floor of a
twenty percent increase (graphql service source, line 953). -/
def floorMul12 (xpRequired : Int) : Int :=
  Int.fdiv (xpRequired * 12) 10

/-- The while loop of the XP fallback (graphql service source, lines
946-954), given enough fuel: the loop increments the level at most 99
times since it stops at level 100, so fuel 100 is never exhausted. -/
def levelLoop : Nat → Nat → Int → Int → Nat
  | 0, calculatedLevel, _, _ => calculatedLevel
  | fuel + 1, calculatedLevel, xpRequired, remainingXP =>
    if xpRequired ≤ remainingXP ∧ calculatedLevel < 100 then
      levelLoop fuel (calculatedLevel + 1) (floorMul12 xpRequired)
        (remainingXP - xpRequired)
    else calculatedLevel

/-- Strategy 5 of getUserRank: simulate level-ups from total XP,
starting at level 1 with a 50000 requirement. -/
def calculateLevelFromXP (totalXP : Int) : Nat :=
  levelLoop 100 1 50000 totalXP

/-- The data the getUserRank probes fetch, each through a fallible
query: the already-fetched progress records, the unused basic user
query, the level or rank progress matches (server-ordered), the amounts
of the level or rank transaction matches (server-ordered), the full
progress list, and the amounts of the xp transactions. -/
structure RankInputs where
  existingProgress : Except String (List ProgressRec)
  userResult : Except String Unit
  levelProgress : Except String (List ProgressRec)
  levelTransactions : Except String (List Int)
  allProgress : Except String (List ProgressRec)
  xpAmounts : Except String (List Int)

/-- The body of getUserRank inside its try block (graphql service
source, lines 731-964): the five strategies in order, each query bound
through the failure channel. -/
def getUserRankBody (inputs : RankInputs) : Except String RankResult := do
  let existingProgress ← inputs.existingProgress
  match quickLevel existingProgress with
  | some r => return r
  | none =>
    let _ ← inputs.userResult
    let levelProgress ← inputs.levelProgress
    let levelTransactions ← inputs.levelTransactions
    match levelProgress with
    | progress :: _ =>
      return ⟨orOne ⌊progress.grade⌋, getRankName (orOne ⌊progress.grade⌋)⟩
    | [] =>
      match levelTransactions with
      | amount :: _ =>
        return ⟨orOne (jsFloorDiv amount 1000),
          getRankName (orOne (jsFloorDiv amount 1000))⟩
      | [] =>
        let allProgress ← inputs.allProgress
        match highestGradeLevel allProgress with
        | some r => return r
        | none =>
          let xpAmounts ← inputs.xpAmounts
          let totalXP := xpAmounts.foldl (· + ·) 0
          let calculatedLevel := calculateLevelFromXP totalXP
          return ⟨(calculatedLevel : Int), getRankName (calculatedLevel : Int)⟩

/-- getUserRank with its catch handler (graphql service source, lines
966-969): any failure yields level 1, Beginner. -/
def getUserRank (inputs : RankInputs) : RankResult :=
  match getUserRankBody inputs with
  | .ok r => r
  | .error _ => ⟨1, "Beginner"⟩

/-- C9: if any step of the rank estimation fails, getUserRank returns
the default level 1, Beginner result instead of propagating the error. -/
theorem getUserRank_error_fallback (inputs : RankInputs) (e : String)
    (h : getUserRankBody inputs = .error e) :
    getUserRank inputs = ⟨1, "Beginner"⟩ := by
  unfold getUserRank
  rw [h]

/-- Inputs whose first probe fails, used as the C9 witness. -/
def failingInputs : RankInputs :=
  ⟨.error "network failure", .ok (), .ok [], .ok [], .ok [], .ok []⟩

theorem getUserRank_error_fallback_witness :
    getUserRank failingInputs = ⟨1, "Beginner"⟩ :=
  getUserRank_error_fallback failingInputs "network failure" rfl

/-- C6: with no level or rank signals anywhere and a total XP of exactly
50000, the fallback simulation consumes the first 50000 requirement,
raises the requirement to 60000, stops, and reports level 2. -/
theorem getUserRank_level_two_at_50000_xp :
    getUserRank ⟨.ok [], .ok (), .ok [], .ok [], .ok [], .ok [50000]⟩ =
        ⟨2, "Apprentice"⟩ ∧
      calculateLevelFromXP 50000 = 2 := by
  constructor <;> decide

/-- One step of the skillsMap construction (graphql service source,
lines 1018-1036): a JS Map keyed by the formatted skill name, set when
the key is absent or the stored highest amount is smaller; insertion
order is kept, a new key goes to the back. -/
def updSkillsMap (m : List (String × Int)) (name : String) (amt : Int) :
    List (String × Int) :=
  match m with
  | [] => [(name, amt)]
  | (n, a) :: rest =>
    if n = name then (if a < amt then (name, amt) else (n, a)) :: rest
    else (n, a) :: updSkillsMap rest name amt

/-- The skillsMap after the forEach over all skill transactions.  The
source reads transaction.amount || 0, the identity on the integral
amounts modelled here. -/
def skillsMapOf (transactions : List Transaction) : List (String × Int) :=
  transactions.foldl
    (fun m t => updSkillsMap m (formatSkillName t.kind) t.amount) []

/-- The displayed part of one processed skill (graphql service source,
lines 1054-1083): percentage is the highest amount capped at 100 (the
source's Math.round is the identity on this integral value), grade is
the capped amount over 100. -/
structure SkillEntry where
  name : String
  highestAmount : Int
  percentage : Int
  grade : ℚ
deriving DecidableEq, Repr

def processSkill (p : String × Int) : SkillEntry :=
  ⟨p.1, p.2, min p.2 100, ((min p.2 100 : Int) : ℚ) / 100⟩

/-- getSkillsWithHighestAmounts (graphql service source, lines
978-1095): group by formatted name keeping the highest amount, process
each aggregate, sort descending by highest amount (stable). -/
def getSkillsWithHighestAmounts (transactions : List Transaction) :
    List SkillEntry :=
  ((skillsMapOf transactions).map processSkill).insertionSort
    (fun a b => b.highestAmount ≤ a.highestAmount)

/-- The aggregate value a ∈ ℤ is the highest amount observed in the
transaction list under the normalized name n. -/
def MaxFor (transactions : List Transaction) (n : String) (a : Int) : Prop :=
  (∃ t ∈ transactions, formatSkillName t.kind = n ∧ t.amount = a) ∧
  (∀ t ∈ transactions, formatSkillName t.kind = n → t.amount ≤ a)

theorem mem_keys_iff (l : List (String × Int)) (k : String) :
    k ∈ l.map Prod.fst ↔ ∃ b, (k, b) ∈ l := by
  induction l with
  | nil => simp
  | cons hd rest ih =>
    obtain ⟨p, b⟩ := hd
    simp only [List.map_cons, List.mem_cons, ih, Prod.mk.injEq]
    constructor
    · rintro (rfl | ⟨c, hc⟩)
      · exact ⟨b, Or.inl ⟨rfl, rfl⟩⟩
      · exact ⟨c, Or.inr hc⟩
    · rintro ⟨c, ⟨rfl, rfl⟩ | hc⟩
      · exact Or.inl rfl
      · exact Or.inr ⟨c, hc⟩

theorem mem_keys_updSkillsMap (m : List (String × Int)) (n : String)
    (a : Int) (k : String) :
    k ∈ (updSkillsMap m n a).map Prod.fst ↔
      k ∈ m.map Prod.fst ∨ k = n := by
  induction m with
  | nil => simp [updSkillsMap]
  | cons hd rest ih =>
    obtain ⟨p, b⟩ := hd
    by_cases hp : p = n
    · subst hp
      rw [updSkillsMap, if_pos rfl]
      by_cases hba : b < a <;> simp [hba] <;> tauto
    · rw [updSkillsMap, if_neg hp]
      simp only [List.map_cons, List.mem_cons, ih]
      tauto

theorem nodup_keys_updSkillsMap (m : List (String × Int)) (n : String)
    (a : Int) (h : (m.map Prod.fst).Nodup) :
    ((updSkillsMap m n a).map Prod.fst).Nodup := by
  induction m with
  | nil => simp [updSkillsMap]
  | cons hd rest ih =>
    obtain ⟨p, b⟩ := hd
    rw [List.map_cons, List.nodup_cons] at h
    by_cases hp : p = n
    · subst hp
      rw [updSkillsMap, if_pos rfl]
      by_cases hba : b < a <;>
        simpa [hba, List.nodup_cons] using h
    · rw [updSkillsMap, if_neg hp, List.map_cons, List.nodup_cons]
      refine ⟨?_, ih h.2⟩
      rw [mem_keys_updSkillsMap]
      rintro (hc | rfl)
      · exact h.1 hc
      · exact hp rfl

theorem updSkillsMap_maxFor (seen : List Transaction) (t : Transaction)
    (m : List (String × Int))
    (hnodup : (m.map Prod.fst).Nodup)
    (hmax : ∀ q ∈ m, MaxFor seen q.1 q.2)
    (hcov : ∀ u ∈ seen,
      formatSkillName u.kind = formatSkillName t.kind →
        ∃ b, (formatSkillName t.kind, b) ∈ m) :
    ∀ q ∈ updSkillsMap m (formatSkillName t.kind) t.amount,
      MaxFor (seen ++ [t]) q.1 q.2 := by
  induction m with
  | nil =>
    intro q hq
    rw [updSkillsMap, List.mem_singleton] at hq
    subst hq
    constructor
    · exact ⟨t, by simp, rfl, rfl⟩
    · intro u hu hname
      rcases List.mem_append.mp hu with hus | hut
      · obtain ⟨b, hb⟩ := hcov u hus hname
        exact absurd hb (List.not_mem_nil _)
      · rw [List.mem_singleton] at hut
        subst hut
        exact le_refl _
  | cons hd rest ih =>
    obtain ⟨p, b⟩ := hd
    rw [List.map_cons, List.nodup_cons] at hnodup
    intro q hq
    by_cases hp : p = formatSkillName t.kind
    · rw [updSkillsMap, if_pos hp] at hq
      rcases List.mem_cons.mp hq with hq | hq
      · by_cases hba : b < t.amount
        · rw [if_pos hba] at hq
          subst hq
          constructor
          · exact ⟨t, by simp, rfl, rfl⟩
          · intro u hu hname
            rcases List.mem_append.mp hu with hus | hut
            · refine le_of_lt (lt_of_le_of_lt
                ((hmax (p, b) (List.mem_cons_self _ _)).2 u hus ?_) hba)
              exact hname.trans hp.symm
            · rw [List.mem_singleton] at hut
              subst hut
              exact le_refl _
        · rw [if_neg hba] at hq
          subst hq
          have hold := hmax (p, b) (List.mem_cons_self _ _)
          constructor
          · obtain ⟨u, hus, hun, hua⟩ := hold.1
            exact ⟨u, List.mem_append_left _ hus, hun, hua⟩
          · intro u hu hname
            rcases List.mem_append.mp hu with hus | hut
            · exact hold.2 u hus hname
            · rw [List.mem_singleton] at hut
              subst hut
              exact le_of_not_lt hba
      · have hkeys : q.1 ∈ rest.map Prod.fst := List.mem_map_of_mem _ hq
        have hq1 : ¬ (formatSkillName t.kind = q.1) := by
          intro hq1
          refine hnodup.1 ?_
          rw [hp.trans hq1]
          exact hkeys
        have hold := hmax q (List.mem_cons_of_mem _ hq)
        constructor
        · obtain ⟨u, hus, hun, hua⟩ := hold.1
          exact ⟨u, List.mem_append_left _ hus, hun, hua⟩
        · intro u hu hname
          rcases List.mem_append.mp hu with hus | hut
          · exact hold.2 u hus hname
          · rw [List.mem_singleton] at hut
            subst hut
            exact absurd hname hq1
    · rw [updSkillsMap, if_neg hp] at hq
      rcases List.mem_cons.mp hq with hq | hq
      · subst hq
        have hold := hmax (p, b) (List.mem_cons_self _ _)
        constructor
        · obtain ⟨u, hus, hun, hua⟩ := hold.1
          exact ⟨u, List.mem_append_left _ hus, hun, hua⟩
        · intro u hu hname
          rcases List.mem_append.mp hu with hus | hut
          · exact hold.2 u hus hname
          · rw [List.mem_singleton] at hut
            subst hut
            exact absurd hname.symm hp
      · refine ih hnodup.2 (fun q' hq' => hmax q' (List.mem_cons_of_mem _ hq'))
          (fun u hus hname => ?_) q hq
        obtain ⟨c, hc⟩ := hcov u hus hname
        rcases List.mem_cons.mp hc with hc | hc
        · exact absurd (congrArg Prod.fst hc).symm hp
        · exact ⟨c, hc⟩

theorem skillsFold_maxFor (transactions : List Transaction) :
    ∀ (seen : List Transaction) (m : List (String × Int)),
      (m.map Prod.fst).Nodup →
      (∀ q ∈ m, MaxFor seen q.1 q.2) →
      (∀ u ∈ seen, ∃ b, (formatSkillName u.kind, b) ∈ m) →
      ∀ q ∈ transactions.foldl (fun acc t =>
          updSkillsMap acc (formatSkillName t.kind) t.amount) m,
        MaxFor (seen ++ transactions) q.1 q.2 := by
  induction transactions with
  | nil =>
    intro seen m _ hmax _ q hq
    rw [List.foldl_nil] at hq
    simpa using hmax q hq
  | cons t ts ih =>
    intro seen m hnodup hmax hcov q hq
    rw [List.foldl_cons] at hq
    have hres := ih (seen ++ [t])
      (updSkillsMap m (formatSkillName t.kind) t.amount)
      (nodup_keys_updSkillsMap m _ _ hnodup)
      (updSkillsMap_maxFor seen t m hnodup hmax
        (fun u hus hname => (hname ▸ hcov u hus : _)))
      (fun u hu => ?_) q hq
    · rwa [List.append_assoc, List.singleton_append] at hres
    · rcases List.mem_append.mp hu with hus | hut
      · obtain ⟨c, hc⟩ := hcov u hus
        have : formatSkillName u.kind ∈
            (updSkillsMap m (formatSkillName t.kind) t.amount).map Prod.fst := by
          rw [mem_keys_updSkillsMap]
          exact Or.inl ((mem_keys_iff m _).mpr ⟨c, hc⟩)
        exact (mem_keys_iff _ _).mp this
      · rw [List.mem_singleton] at hut
        subst hut
        have : formatSkillName u.kind ∈
            (updSkillsMap m (formatSkillName u.kind) u.amount).map Prod.fst := by
          rw [mem_keys_updSkillsMap]
          exact Or.inr rfl
        exact (mem_keys_iff _ _).mp this

theorem skillsMapOf_maxFor (transactions : List Transaction) :
    ∀ q ∈ skillsMapOf transactions, MaxFor transactions q.1 q.2 := by
  intro q hq
  have := skillsFold_maxFor transactions [] []
    (by simp) (by simp) (by simp) q hq
  simpa using this

/-- C8: every aggregate produced by getSkillsWithHighestAmounts carries
as its amount the single highest amount observed for its normalized
label, its percentage is that amount capped at 100 (the rounding being
the identity on integral amounts), and its grade is the percentage over
100. -/
theorem getSkillsWithHighestAmounts_spec (transactions : List Transaction)
    (entry : SkillEntry)
    (h : entry ∈ getSkillsWithHighestAmounts transactions) :
    (∃ t ∈ transactions,
        formatSkillName t.kind = entry.name ∧
          t.amount = entry.highestAmount) ∧
      (∀ t ∈ transactions,
        formatSkillName t.kind = entry.name →
          t.amount ≤ entry.highestAmount) ∧
      entry.percentage = min entry.highestAmount 100 ∧
      entry.grade = (entry.percentage : ℚ) / 100 := by
  rw [getSkillsWithHighestAmounts] at h
  have h' := (List.perm_insertionSort
    (fun a b : SkillEntry => b.highestAmount ≤ a.highestAmount)
    ((skillsMapOf transactions).map processSkill)).mem_iff.mp h
  obtain ⟨p, hp, rfl⟩ := List.mem_map.mp h'
  have hmax := skillsMapOf_maxFor transactions p hp
  exact ⟨hmax.1, hmax.2, rfl, rfl⟩

/-- A single skill transaction, used as the C8 witness input. -/
def sampleSkillTx : Transaction :=
  ⟨"", "", "", 40, 0, "skill_go"⟩

theorem getSkillsWithHighestAmounts_spec_witness :
    (∃ t ∈ [sampleSkillTx],
        formatSkillName t.kind = (processSkill ("Go Programming", 40)).name ∧
          t.amount = (processSkill ("Go Programming", 40)).highestAmount) ∧
      (∀ t ∈ [sampleSkillTx],
        formatSkillName t.kind = (processSkill ("Go Programming", 40)).name →
          t.amount ≤ (processSkill ("Go Programming", 40)).highestAmount) ∧
      (processSkill ("Go Programming", 40)).percentage =
        min (processSkill ("Go Programming", 40)).highestAmount 100 ∧
      (processSkill ("Go Programming", 40)).grade =
        ((processSkill ("Go Programming", 40)).percentage : ℚ) / 100 :=
  getSkillsWithHighestAmounts_spec [sampleSkillTx]
    (processSkill ("Go Programming", 40)) (List.mem_singleton.mpr rfl)

end GraphQLDash
